import Mathlib

/-!
Shallow embedding of `analyze_dreams.py` from the `sonhos` repository: a
keyword-based analyzer of short dream-journal texts.

Modelling conventions:
* Python strings are Lean `String`s (sequences of Unicode code points, matching
  Python's code-point view of `str`); `keyword in content` is literal substring
  containment, modelled by `containsSub` on `List Char`.
* `str.lower()` is modelled by `Char.toLower` on each character (ASCII case
  folding; every non-ASCII character appearing in the repository's data is an
  already-lowercase accented letter, which Python's `lower` also leaves fixed).
* Python dicts built by insertion (`d[k] = d.get(k, 0) + v`) are modelled as
  insertion-ordered association lists updated by `bumpAdd`.
* Python's `sorted(..., reverse=True)` is stable; any stable sort produces the
  same list, and we model it by the stable insertion sort `sortDesc`.
* `datetime.now()` is modelled as an explicit `now : String` parameter.
-/

set_option autoImplicit false

namespace Sonhos

/-- `matchesAt pat s`: the pattern `pat` occurs at the very start of `s`. -/
def matchesAt : List Char → List Char → Bool
  | [], _ => true
  | _ :: _, [] => false
  | p :: ps, c :: cs => p == c && matchesAt ps cs

/-- Python substring containment `pat in s`, on character lists. -/
def containsSub : List Char → List Char → Bool
  | [], pat => pat.isEmpty
  | c :: t, pat => matchesAt pat (c :: t) || containsSub t pat

/-- Python `pat in content` on strings. -/
def strIn (pat content : String) : Bool :=
  containsSub content.data pat.data

/-- Python `str.lower()` (ASCII case folding; see module comment). -/
def lowerStr (s : String) : String :=
  ⟨s.data.map Char.toLower⟩

/-- Characters matched by Python's regex class `\w`: ASCII alphanumerics,
underscore, and non-ASCII word characters (in this repository's data every
non-ASCII character is an accented letter, hence a `\w` character). -/
def isWordChar (c : Char) : Bool :=
  c.isAlphanum || c == '_' || 127 < c.toNat

/-- Accumulator pass splitting a character list into the maximal runs of
characters satisfying `p` (`cur` holds the current run, reversed). -/
def tokensAux (p : Char → Bool) : List Char → List Char → List String
  | [], cur => if cur = [] then [] else [⟨cur.reverse⟩]
  | c :: t, cur =>
    if p c then tokensAux p t (c :: cur)
    else if cur = [] then tokensAux p t [] else ⟨cur.reverse⟩ :: tokensAux p t []

/-- Maximal runs of characters satisfying `p` in a string, in order. -/
def tokensBy (p : Char → Bool) (s : String) : List String :=
  tokensAux p s.data []

/-- Python `re.findall(r'\b\w+\b', content)`: the maximal runs of word
characters. -/
def findWords (s : String) : List String :=
  tokensBy isWordChar s

/-- Python `content.split()`: maximal runs of non-whitespace characters. -/
def pySplit (s : String) : List String :=
  tokensBy (fun c => !c.isWhitespace) s

/-- The `self.emotions` lexicon of `DreamAnalyzer.__init__`, in insertion
order. -/
def emotions : List (String × List String) :=
  [("positivo", ["feliz", "alegre", "esperança", "amor", "paz", "luz", "voar", "liberdade"]),
   ("nostalgico", ["passado", "infância", "memória", "saudade", "tempo", "antigo"]),
   ("misterioso", ["escuro", "sombra", "desconhecido", "estranho", "mágico", "surreal"]),
   ("ansioso", ["correr", "perseguir", "perder", "cair", "medo", "pressa", "fugir"])]

/-- `self.future_keywords`. -/
def future_keywords : List String :=
  ["futuro", "amanhã", "próximo", "espero", "quero", "desejo", "planejo"]

/-- `self.night_keywords`. -/
def night_keywords : List String :=
  ["dormir", "sonhei", "pesadelo", "acordei", "noite", "cama"]

/-- The local list `negative_indicators` of `calculate_positivity`. -/
def negative_indicators : List String :=
  ["não", "nunca", "impossível", "difícil", "problema", "medo"]

/-- Python `sum(1 for keyword in kws if keyword in content)`. -/
def countHits (kws : List String) (content : String) : Nat :=
  (kws.filter (fun k => strIn k content)).length

/-- `DreamAnalyzer.detect_dream_type` (its argument is the already lowercased
content). -/
def detect_dream_type (content : String) : String :=
  let future_count := countHits future_keywords content
  let night_count := countHits night_keywords content
  if future_count > night_count then "futuro"
  else if night_count > future_count then "noturno"
  else "indefinido"

/-- `DreamAnalyzer.analyze_emotions`: the insertion-ordered dict
`emotion_scores`, keeping only categories with positive score. -/
def analyze_emotions (content : String) : List (String × Nat) :=
  emotions.foldl
    (fun acc p =>
      if 0 < countHits p.2 content then acc ++ [(p.1, countHits p.2 content)] else acc)
    []

/-- Python `d[w] = d.get(w, 0) + s` on an insertion-ordered dict: add `s` to
the value at key `w`, appending the key if absent. -/
def bumpAdd : List (String × Nat) → String → Nat → List (String × Nat)
  | [], w, s => [(w, s)]
  | (k, c) :: t, w, s =>
    if k = w then (k, c + s) :: t else (k, c) :: bumpAdd t w s

/-- Stable insertion into a list kept in descending `val` order: `x` goes in
front of the first element whose value does not exceed `val x`. -/
def insertDesc {α : Type} (val : α → Nat) (x : α) : List α → List α
  | [] => [x]
  | y :: ys => if val y ≤ val x then x :: y :: ys else y :: insertDesc val x ys

/-- Stable sort by descending `val`, modelling Python's stable
`sorted(..., key=..., reverse=True)`. -/
def sortDesc {α : Type} (val : α → Nat) : List α → List α
  | [] => []
  | x :: xs => insertDesc val x (sortDesc val xs)

/-- The `word_freq` dict of `extract_keywords`: the loop
`for word in keywords: word_freq[word] = word_freq.get(word, 0) + 1`. -/
def buildFreq (ks : List String) : List (String × Nat) :=
  ks.foldl (fun acc w => bumpAdd acc w 1) []

/-- `DreamAnalyzer.extract_keywords` (its argument is the already lowercased
content). -/
def extract_keywords (content : String) : List (String × Nat) :=
  let words := findWords content
  let keywords := words.filter (fun w => 4 < w.length)
  (sortDesc Prod.snd (buildFreq keywords)).take 5

/-- `DreamAnalyzer.calculate_positivity` (its argument is the already
lowercased content).  Python ints are modelled by `Int`. -/
def calculate_positivity (content : String) : Int :=
  let positive_words := (emotions.lookup ("positivo")).getD []
  let positive_count : Int := countHits positive_words content
  let negative_count : Int := countHits negative_indicators content
  let total_words := (pySplit content).length
  if total_words = 0 then 50
  else max 0 (min 100 (50 + positive_count * 10 - negative_count * 5))

/-- The per-entry analysis record returned by
`DreamAnalyzer.analyze_dream_content`. -/
structure Analysis where
  type : String
  emotions : List (String × Nat)
  keywords : List (String × Nat)
  positivity_score : Int
  word_count : Nat
  analysis_date : String
deriving DecidableEq

/-- `DreamAnalyzer.analyze_dream_content`; `now` stands for
`datetime.now().isoformat()`. -/
def analyze_dream_content (now : String) (content : String) : Analysis :=
  let content_lower := lowerStr content
  { type := detect_dream_type content_lower
    emotions := analyze_emotions content_lower
    keywords := extract_keywords content_lower
    positivity_score := calculate_positivity content_lower
    word_count := (pySplit content).length
    analysis_date := now }

/-- A dream-journal entry: a record whose `content` key may be missing
(`dream.get('content', '')`), plus the other fields the sample data carries,
which the analysis never reads. -/
structure Entry where
  content? : Option String
  declaredType : String
  date : String
deriving DecidableEq

/-- Python `dream.get('content', '')`. -/
def getContent (e : Entry) : String :=
  match e.content? with
  | some c => c
  | none => ""

/-- The `types_count` dict of `generate_dream_report`: per-type tallies in
first-encountered order. -/
def typesCount (analyses : List Analysis) : List (String × Nat) :=
  analyses.foldl (fun acc a => bumpAdd acc a.type 1) []

/-- The `emotions_total` dict of `generate_dream_report`. -/
def emotionsTotal (analyses : List Analysis) : List (String × Nat) :=
  analyses.foldl
    (fun acc a => a.emotions.foldl (fun acc2 p => bumpAdd acc2 p.1 p.2) acc)
    []

/-- Sum of the per-entry positivity scores (the `avg_positivity` accumulator
before the final division). -/
def positivitySum (analyses : List Analysis) : Int :=
  (analyses.map (fun a => a.positivity_score)).sum

/-- Python `f"{q:.1f}"` on a non-negative number: one decimal place.  The
exact value is modelled as a rational; `round` is Mathlib's round-half-up,
which agrees with Python's float formatting away from exact ties. -/
def fmt1 (q : ℚ) : String :=
  let n : ℤ := round (q * 10)
  toString (n / 10) ++ "." ++ toString (n % 10)

/-- Python `str.title()` on the single lowercase words used as category
labels: capitalize the first character. -/
def capitalize (s : String) : String :=
  match s.data with
  | [] => ""
  | c :: t => ⟨Char.toUpper c :: t.map Char.toLower⟩

/-- The percentage `(count / total_dreams) * 100` as an exact rational. -/
def pctOf (count total : Nat) : ℚ :=
  ((count : ℚ) / (total : ℚ)) * 100

/-- One line of the type breakdown:
`f"- **{dream_type.title()}:** {count} sonhos ({percentage:.1f}%)\n"`. -/
def typeLine (total : Nat) (p : String × Nat) : String :=
  "- **" ++ capitalize p.1 ++ ":** " ++ toString p.2 ++ " sonhos ("
    ++ fmt1 (pctOf p.2 total) ++ "%)\n"

/-- One line of the emotion breakdown:
`f"- **{emotion.title()}:** {total_score} ocorrências\n"`. -/
def emotionLine (p : String × Nat) : String :=
  "- **" ++ capitalize p.1 ++ ":** " ++ toString p.2 ++ " ocorrências\n"

/-- The non-empty branch of `generate_dream_report`, rendering the report from
the entry count and the per-entry analyses. -/
def reportBody (now : String) (total_dreams : Nat) (analyses : List Analysis) : String :=
  let types_count := typesCount analyses
  let emotions_total := emotionsTotal analyses
  let avg_positivity : ℚ :=
    if 0 < total_dreams then (positivitySum analyses : ℚ) / (total_dreams : ℚ) else 0
  "\n# 🌙 RELATÓRIO DE ANÁLISE DOS SONHOS\n\n## 📊 Estatísticas Gerais\n- **Total de sonhos analisados:** "
    ++ toString total_dreams
    ++ "\n- **Score médio de positividade:** " ++ fmt1 avg_positivity
    ++ "/100\n\n## 🎭 Tipos de Sonhos\n"
    ++ String.join (types_count.map (typeLine total_dreams))
    ++ "\n## 💭 Emoções Predominantes\n"
    ++ String.join ((sortDesc Prod.snd emotions_total).map emotionLine)
    ++ "\n## 🔮 Análise Gerada em: " ++ now ++ "\n"

/-- `DreamAnalyzer.generate_dream_report`; `now` stands for the formatted
`datetime.now()` timestamp. -/
def generate_dream_report (now : String) (dreams_data : List Entry) : String :=
  if dreams_data = [] then "Nenhum sonho para analisar."
  else
    reportBody now dreams_data.length
      (dreams_data.map (fun d => analyze_dream_content now (getContent d)))

/-- The `sample_dreams` list of `main`. -/
def sample_dreams : List Entry :=
  [⟨some ("Sonhei que estava voando sobre uma cidade do futuro com carros voadores e prédios verdes"),
    "futuro", "2025-01-10"⟩,
   ⟨some ("Tive um pesadelo onde estava correndo de algo escuro e não conseguia encontrar a saída"),
    "noturno", "2025-01-09"⟩,
   ⟨some ("Imagino um mundo onde todos vivem em paz e harmonia, sem guerras nem fome"),
    "futuro", "2025-01-08"⟩]

/-- Sum of the values of an insertion-ordered tally. -/
def valSum (l : List (String × Nat)) : Nat :=
  (l.map Prod.snd).sum

/-- Position of the first occurrence of `w` in `l` (length of `l` if absent):
the rank of a token's first appearance. -/
def firstPos : List String → String → Nat
  | [], _ => 0
  | x :: t, w => if x = w then 0 else firstPos t w + 1

/-! ## Claims -/

/-- C1: `detect_dream_type` always returns one of the three labels
`futuro`/`noturno`/`indefinido` (the code's names for future/nocturnal/
undefined); it returns `futuro` exactly when the future-keyword count
strictly exceeds the night-keyword count, `noturno` exactly when the night
count strictly exceeds the future count, and `indefinido` exactly on a tie
(including 0–0).  Both keyword lists are duplicate-free, so each count is the
number of distinct keywords occurring as substrings of the (lowercased)
content the pipeline passes in. -/
theorem claim_C1 (content : String) :
    detect_dream_type content ∈ (["futuro", "noturno", "indefinido"] : List String) ∧
    future_keywords.Nodup ∧ night_keywords.Nodup ∧
    (detect_dream_type content = "futuro" ↔
      countHits night_keywords content < countHits future_keywords content) ∧
    (detect_dream_type content = "noturno" ↔
      countHits future_keywords content < countHits night_keywords content) ∧
    (detect_dream_type content = "indefinido" ↔
      countHits future_keywords content = countHits night_keywords content) := by
  have h3 : detect_dream_type content =
      if countHits night_keywords content < countHits future_keywords content then "futuro"
      else if countHits future_keywords content < countHits night_keywords content then "noturno"
      else "indefinido" := rfl
  set fc := countHits future_keywords content
  set nc := countHits night_keywords content
  rcases Nat.lt_trichotomy fc nc with h | h | h
  · rw [h3, if_neg (by omega), if_pos h]
    exact ⟨by decide, by decide, by decide,
      iff_of_false (by decide) (by omega),
      iff_of_true rfl h,
      iff_of_false (by decide) (by omega)⟩
  · rw [h3, if_neg (by omega), if_neg (by omega)]
    exact ⟨by decide, by decide, by decide,
      iff_of_false (by decide) (by omega),
      iff_of_false (by decide) (by omega),
      iff_of_true rfl h⟩
  · rw [h3, if_pos h]
    exact ⟨by decide, by decide, by decide,
      iff_of_true rfl h,
      iff_of_false (by decide) (by omega),
      iff_of_false (by decide) (by omega)⟩

/-- C2 counterexample: on the content
`"Sonhei que estava voando sobre uma cidade do futuro"` the claim (one future
hit, zero night hits, classified `futuro`) is false: the night keyword
`"sonhei"` occurs, so the night count is not zero and the type is not
`futuro`. -/
theorem claim_C2_cex :
    ¬ (countHits future_keywords
          (lowerStr ("Sonhei que estava voando sobre uma cidade do futuro")) = 1 ∧
       countHits night_keywords
          (lowerStr ("Sonhei que estava voando sobre uma cidade do futuro")) = 0 ∧
       detect_dream_type
          (lowerStr ("Sonhei que estava voando sobre uma cidade do futuro")) = "futuro") := by
  decide

/-- C2 (amended): on the content
`"Sonhei que estava voando sobre uma cidade do futuro"` the analysis finds
exactly one future-keyword hit (`"futuro"`) and exactly one night-keyword hit
(`"sonhei"`), a tie, so the entry's type is `indefinido` (undefined). -/
theorem claim_C2 :
    countHits future_keywords
        (lowerStr ("Sonhei que estava voando sobre uma cidade do futuro")) = 1 ∧
    strIn ("futuro") (lowerStr ("Sonhei que estava voando sobre uma cidade do futuro")) = true ∧
    countHits night_keywords
        (lowerStr ("Sonhei que estava voando sobre uma cidade do futuro")) = 1 ∧
    strIn ("sonhei") (lowerStr ("Sonhei que estava voando sobre uma cidade do futuro")) = true ∧
    detect_dream_type
        (lowerStr ("Sonhei que estava voando sobre uma cidade do futuro")) = "indefinido" := by
  decide

/-- C3 counterexample: on the three-entry reference sample the per-type counts
are not `{futuro: 2, noturno: 1}` — the first sample entry contains the night
keyword `"sonhei"` as well as `"futuro"`, ties 1–1 and is classified
`indefinido`, so no entry at all is counted under `futuro`. -/
theorem claim_C3_cex :
    ¬ ((typesCount (sample_dreams.map
            (fun d => analyze_dream_content ("") (getContent d)))).lookup ("futuro") = some 2 ∧
       (typesCount (sample_dreams.map
            (fun d => analyze_dream_content ("") (getContent d)))).lookup ("noturno") = some 1) := by
  decide

/-- C3 (amended): on the three-entry reference sample the per-type counts are
`{indefinido: 2, noturno: 1}` (in first-encountered order), and the rendered
percentage for the majority type `indefinido` is `66.7%`. -/
theorem claim_C3 :
    typesCount (sample_dreams.map (fun d => analyze_dream_content ("") (getContent d)))
      = [("indefinido", 2), ("noturno", 1)] ∧
    fmt1 (pctOf 2 3) = "66.7" ∧
    typeLine 3 ("indefinido", 2) = "- **Indefinido:** 2 sonhos (66.7%)\n" := by
  have hq : pctOf 2 3 * 10 = (2000 : ℚ) / 3 := by unfold pctOf; norm_num
  have hr : round (pctOf 2 3 * 10) = 667 := by rw [hq]; norm_num [round_eq]
  have hf : fmt1 (pctOf 2 3) = "66.7" := by
    simp only [fmt1]
    rw [hr]
    rfl
  refine ⟨by decide, hf, ?_⟩
  simp only [typeLine]
  rw [hf]
  rfl

/-- C7: `generate_dream_report` on the empty entry sequence returns the fixed
empty-state message.  The early return is the first thing the function does:
no per-entry analysis and no division is reachable on this branch (the model's
equation holds by pure reduction of that branch alone). -/
theorem claim_C7 (now : String) :
    generate_dream_report now [] = "Nenhum sonho para analisar." := rfl

/-- The report depends on the entries only through their (defaulted) `content`
fields: entry sequences with equal content sequences yield equal reports. -/
theorem report_ext (now : String) {l1 l2 : List Entry}
    (h : l1.map getContent = l2.map getContent) :
    generate_dream_report now l1 = generate_dream_report now l2 := by
  have hmix : ∀ l : List Entry,
      (l.map getContent).map (fun c => analyze_dream_content now c)
        = l.map (fun d => analyze_dream_content now (getContent d)) := by
    intro l
    rw [List.map_map]
    rfl
  have hlen : l1.length = l2.length := by
    have := congrArg List.length h
    simpa using this
  have hmap : l1.map (fun d => analyze_dream_content now (getContent d))
      = l2.map (fun d => analyze_dream_content now (getContent d)) := by
    rw [← hmix l1, ← hmix l2, h]
  by_cases hnil : l1 = []
  · subst hnil
    have h2 : l2 = [] := by
      have := h.symm
      simpa using this
    subst h2
    rfl
  · have hnil2 : l2 ≠ [] := by
      intro h2
      subst h2
      simp only [List.map_nil, List.map_eq_nil_iff] at h
      exact hnil h
    unfold generate_dream_report
    rw [if_neg hnil, if_neg hnil2, hlen, hmap]

/-- C8: in `generate_dream_report` an entry without a `content` field is
analyzed exactly as if its content were the empty string
(`dream.get('content', '')`), and the analysis of empty content degrades
gracefully: type `indefinido`, empty emotion mapping, empty keyword list,
positivity 50, word count 0. -/
theorem claim_C8 (now dtype date : String) (pre post : List Entry) :
    analyze_dream_content now (getContent ⟨none, dtype, date⟩)
      = analyze_dream_content now (getContent ⟨some (""), dtype, date⟩) ∧
    analyze_dream_content now ("")
      = { type := "indefinido", emotions := [], keywords := [],
          positivity_score := 50, word_count := 0, analysis_date := now } ∧
    generate_dream_report now (pre ++ (⟨none, dtype, date⟩ : Entry) :: post)
      = generate_dream_report now (pre ++ (⟨some (""), dtype, date⟩ : Entry) :: post) := by
  refine ⟨rfl, rfl, ?_⟩
  apply report_ext
  simp [getContent]

/-- C10: the report is determined by the sequence of (defaulted) content
strings and the timestamp; all other entry fields (date, original type) are
ignored by the analysis. -/
theorem claim_C10 (now : String) (l1 l2 : List Entry)
    (h : l1.map getContent = l2.map getContent) :
    generate_dream_report now l1 = generate_dream_report now l2 :=
  report_ext now h

/-- C10 witness: two one-entry sequences with the same content but different
date and declared-type fields produce identical reports. -/
theorem claim_C10_witness :
    ([⟨some ("sonhei com o futuro"), "futuro", "2025-01-01"⟩] : List Entry).map getContent
      = ([⟨some ("sonhei com o futuro"), "indefinido", "1999-12-31"⟩] : List Entry).map getContent ∧
    generate_dream_report ("hoje")
        [⟨some ("sonhei com o futuro"), "futuro", "2025-01-01"⟩]
      = generate_dream_report ("hoje")
        [⟨some ("sonhei com o futuro"), "indefinido", "1999-12-31"⟩] :=
  ⟨by decide,
    claim_C10 ("hoje")
      [⟨some ("sonhei com o futuro"), "futuro", "2025-01-01"⟩]
      [⟨some ("sonhei com o futuro"), "indefinido", "1999-12-31"⟩]
      (by decide)⟩

/-- `bumpAdd` adds exactly `s` to the total tally. -/
theorem valSum_bumpAdd (l : List (String × Nat)) (w : String) (s : Nat) :
    valSum (bumpAdd l w s) = valSum l + s := by
  induction l with
  | nil => simp [bumpAdd, valSum]
  | cons p t ih =>
    obtain ⟨k, c⟩ := p
    by_cases hk : k = w
    · simp only [bumpAdd, if_pos hk, valSum, List.map_cons, List.sum_cons]
      omega
    · simp only [bumpAdd, if_neg hk, valSum, List.map_cons, List.sum_cons] at ih ⊢
      omega

/-- Folding the per-entry type tally adds one per analysis. -/
theorem valSum_typesCount_aux (l : List Analysis) :
    ∀ init : List (String × Nat),
      valSum (l.foldl (fun acc a => bumpAdd acc a.type 1) init) = valSum init + l.length := by
  induction l with
  | nil => intro init; simp
  | cons a t ih =>
    intro init
    simp only [List.foldl_cons, List.length_cons, ih, valSum_bumpAdd]
    omega

/-- C9: every entry is tallied under exactly one type, so the per-type counts
of `generate_dream_report` sum to the number of entries, and the exact
(pre-rounding) percentages `count / total * 100` sum to exactly 100. -/
theorem claim_C9 (now : String) (dreams : List Entry) (h : dreams ≠ []) :
    valSum (typesCount (dreams.map (fun d => analyze_dream_content now (getContent d))))
      = dreams.length ∧
    ((typesCount (dreams.map (fun d => analyze_dream_content now (getContent d)))).map
        (fun p => pctOf p.2 dreams.length)).sum = 100 := by
  have h1 : valSum (typesCount (dreams.map (fun d => analyze_dream_content now (getContent d))))
      = dreams.length := by
    unfold typesCount
    rw [valSum_typesCount_aux]
    simp [valSum]
  refine ⟨h1, ?_⟩
  have hn : ((dreams.length : ℚ)) ≠ 0 := by
    have hpos : 0 < dreams.length := List.length_pos.mpr h
    exact_mod_cast hpos.ne'
  have hpt : ∀ p : String × Nat,
      pctOf p.2 dreams.length = ((p.2 : ℚ)) * (100 / (dreams.length : ℚ)) := by
    intro p
    unfold pctOf
    ring
  have hcast : ((valSum (typesCount (dreams.map
        (fun d => analyze_dream_content now (getContent d)))) : ℕ) : ℚ)
      = ((typesCount (dreams.map (fun d => analyze_dream_content now (getContent d)))).map
          (fun p => ((p.2 : ℚ)))).sum := by
    unfold valSum
    rw [Nat.cast_list_sum, List.map_map]
    rfl
  simp only [hpt]
  rw [List.sum_map_mul_right, ← hcast, h1]
  field_simp

/-- C9 witness: on the three-entry reference sample the type tallies sum to 3
and the exact percentages sum to 100. -/
theorem claim_C9_witness :
    sample_dreams ≠ [] ∧
    (valSum (typesCount (sample_dreams.map
          (fun d => analyze_dream_content ("") (getContent d))))
        = sample_dreams.length ∧
      ((typesCount (sample_dreams.map
            (fun d => analyze_dream_content ("") (getContent d)))).map
          (fun p => pctOf p.2 sample_dreams.length)).sum = 100) :=
  ⟨by decide, claim_C9 ("") sample_dreams (by decide)⟩

/-- A pattern matching at the head of `s` only uses characters of `s`. -/
theorem matchesAt_subset (pat : List Char) :
    ∀ s : List Char, matchesAt pat s = true → ∀ c ∈ pat, c ∈ s := by
  induction pat with
  | nil => intro s _ c hc; simp at hc
  | cons p ps ih =>
    intro s h c hc
    cases s with
    | nil => simp [matchesAt] at h
    | cons a t =>
      simp only [matchesAt, Bool.and_eq_true, beq_iff_eq] at h
      obtain ⟨h1, h2⟩ := h
      rcases List.mem_cons.mp hc with rfl | hc
      · exact h1 ▸ List.mem_cons_self _ _
      · exact List.mem_cons_of_mem _ (ih t h2 c hc)

/-- A substring only uses characters of the containing string. -/
theorem containsSub_subset (pat : List Char) :
    ∀ s : List Char, containsSub s pat = true → ∀ c ∈ pat, c ∈ s := by
  intro s
  induction s with
  | nil =>
    intro h c hc
    simp only [containsSub, List.isEmpty_iff] at h
    subst h
    simp at hc
  | cons a t ih =>
    intro h c hc
    simp only [containsSub, Bool.or_eq_true] at h
    rcases h with h | h
    · exact matchesAt_subset pat (a :: t) h c hc
    · exact List.mem_cons_of_mem _ (ih h c hc)

/-- A keyword containing a non-whitespace character cannot occur in a string
made only of whitespace. -/
theorem strIn_false_of_ws (pat s : String)
    (hs : ∀ c ∈ s.data, c.isWhitespace = true)
    (hp : ∃ c ∈ pat.data, c.isWhitespace = false) :
    strIn pat s = false := by
  by_contra hcon
  rw [Bool.not_eq_false] at hcon
  obtain ⟨c, hc, hcw⟩ := hp
  have hmem := containsSub_subset pat.data s.data hcon c hc
  rw [hs c hmem] at hcw
  simp at hcw

/-- No keyword with a non-whitespace character is counted in an all-whitespace
string. -/
theorem countHits_eq_zero (kws : List String) (s : String)
    (hs : ∀ c ∈ s.data, c.isWhitespace = true)
    (hk : ∀ kw ∈ kws, ∃ c ∈ kw.data, c.isWhitespace = false) :
    countHits kws s = 0 := by
  unfold countHits
  rw [List.length_eq_zero, List.filter_eq_nil_iff]
  intro kw hkw
  rw [strIn_false_of_ws kw s hs (hk kw hkw)]
  simp

/-- The token splitter never yields the empty token list when the current run
is non-empty. -/
theorem tokensAux_ne_nil (p : Char → Bool) :
    ∀ (t cur : List Char), cur ≠ [] → tokensAux p t cur ≠ [] := by
  intro t
  induction t with
  | nil =>
    intro cur h
    simp [tokensAux, h]
  | cons c cs ih =>
    intro cur h
    simp only [tokensAux]
    by_cases hp : p c
    · rw [if_pos hp]
      exact ih (c :: cur) (by simp)
    · rw [if_neg hp, if_neg h]
      simp

/-- If splitting yields no tokens, no character satisfies the keep-predicate. -/
theorem tokensAux_nil_forall (p : Char → Bool) :
    ∀ t : List Char, tokensAux p t [] = [] → ∀ c ∈ t, p c = false := by
  intro t
  induction t with
  | nil => intro _ c hc; simp at hc
  | cons a cs ih =>
    intro h c hc
    simp only [tokensAux, if_pos rfl] at h
    by_cases hp : p a
    · rw [if_pos hp] at h
      exact absurd h (tokensAux_ne_nil p cs [a] (by simp))
    · rw [if_neg hp] at h
      rcases List.mem_cons.mp hc with rfl | hc
      · exact Bool.eq_false_iff.mpr hp
      · exact ih h c hc

/-- A string with zero whitespace-separated words is entirely whitespace. -/
theorem pySplit_nil_ws (s : String) (h : (pySplit s).length = 0) :
    ∀ c ∈ s.data, c.isWhitespace = true := by
  rw [List.length_eq_zero] at h
  intro c hc
  have hfc := tokensAux_nil_forall (fun c => !c.isWhitespace) s.data h c hc
  simpa using hfc

/-- C4: the positivity score is the integer
`50 + 10*positive_count - 5*negative_count` clamped to `[0, 100]` (where the
counts are the positive-category and negative-indicator keywords occurring as
substrings), it always lies in `[0, 100]`, and an input with zero
whitespace-separated words scores exactly 50. -/
theorem claim_C4 (content : String) :
    calculate_positivity content =
      max 0 (min 100 (50 + 10 * (countHits ((emotions.lookup ("positivo")).getD []) content : Int)
        - 5 * (countHits negative_indicators content : Int))) ∧
    0 ≤ calculate_positivity content ∧ calculate_positivity content ≤ 100 ∧
    ((pySplit content).length = 0 → calculate_positivity content = 50) := by
  have hform : calculate_positivity content =
      if (pySplit content).length = 0 then (50 : Int)
      else max 0 (min 100
        (50 + (countHits ((emotions.lookup ("positivo")).getD []) content : Int) * 10
          - (countHits negative_indicators content : Int) * 5)) := rfl
  have hcomm : (50 + (countHits ((emotions.lookup ("positivo")).getD []) content : Int) * 10
      - (countHits negative_indicators content : Int) * 5)
      = (50 + 10 * (countHits ((emotions.lookup ("positivo")).getD []) content : Int)
        - 5 * (countHits negative_indicators content : Int)) := by ring
  by_cases h0 : (pySplit content).length = 0
  · have hpz : countHits ((emotions.lookup ("positivo")).getD []) content = 0 :=
      countHits_eq_zero _ content (pySplit_nil_ws content h0) (by decide)
    have hnz : countHits negative_indicators content = 0 :=
      countHits_eq_zero _ content (pySplit_nil_ws content h0) (by decide)
    rw [hform, if_pos h0, hpz, hnz]
    norm_num
  · rw [hform, if_neg h0, hcomm]
    refine ⟨rfl, le_max_left 0 _, ?_, fun hx => absurd hx h0⟩
    exact max_le (by norm_num) (min_le_left _ _)

/-- C4 witness: instantiation at the empty string, which has zero words and
scores exactly 50. -/
theorem claim_C4_witness :
    calculate_positivity ("") =
      max 0 (min 100 (50 + 10 * (countHits ((emotions.lookup ("positivo")).getD []) ("") : Int)
        - 5 * (countHits negative_indicators ("") : Int))) ∧
    0 ≤ calculate_positivity ("") ∧ calculate_positivity ("") ≤ 100 ∧
    ((pySplit ("")).length = 0 → calculate_positivity ("") = 50) :=
  claim_C4 ("")

/-- The emotion-scores loop is the filterMap keeping positive scores. -/
theorem analyze_emotions_eq (content : String) :
    analyze_emotions content = emotions.filterMap
      (fun p => if 0 < countHits p.2 content
        then some (p.1, countHits p.2 content) else none) := by
  have haux : ∀ (l : List (String × List String)) (acc : List (String × Nat)),
      l.foldl (fun acc p =>
          if 0 < countHits p.2 content then acc ++ [(p.1, countHits p.2 content)] else acc) acc
        = acc ++ l.filterMap (fun p => if 0 < countHits p.2 content
            then some (p.1, countHits p.2 content) else none) := by
    intro l
    induction l with
    | nil => intro acc; simp
    | cons p t ih =>
      intro acc
      simp only [List.foldl_cons, List.filterMap_cons]
      by_cases h : 0 < countHits p.2 content
      · rw [if_pos h, if_pos h, ih]
        simp
      · rw [if_neg h, if_neg h, ih]
  unfold analyze_emotions
  rw [haux]
  simp

/-- C6: the mapping returned by `analyze_emotions` contains a category exactly
when that category's keyword count in the (lowercased) content is strictly
positive, the stored count equals that keyword count, and no entry of the
mapping ever carries a count of 0 or less. -/
theorem claim_C6 (content : String) (p : String × List String) (hp : p ∈ emotions) :
    (((p.1, countHits p.2 (lowerStr content)) ∈ analyze_emotions (lowerStr content)) ↔
      0 < countHits p.2 (lowerStr content)) ∧
    (∀ c, (p.1, c) ∈ analyze_emotions (lowerStr content) →
      c = countHits p.2 (lowerStr content)) ∧
    (∀ q ∈ analyze_emotions (lowerStr content), 0 < q.2) := by
  have hinj := List.inj_on_of_nodup_map
    (f := Prod.fst) (l := emotions) (by decide)
  rw [analyze_emotions_eq]
  refine ⟨⟨?_, ?_⟩, ?_, ?_⟩
  · intro hmem
    obtain ⟨q, hq, hfq⟩ := List.mem_filterMap.mp hmem
    by_cases hq0 : 0 < countHits q.2 (lowerStr content)
    · rw [if_pos hq0] at hfq
      have h1 : q.1 = p.1 := (Prod.mk.injEq _ _ _ _ ▸ Option.some.inj hfq).1
      have h2 : q = p := hinj hq hp h1
      rw [← h2]
      exact hq0
    · rw [if_neg hq0] at hfq
      exact absurd hfq (by simp)
  · intro h0
    exact List.mem_filterMap.mpr ⟨p, hp, by rw [if_pos h0]⟩
  · intro c hc
    obtain ⟨q, hq, hfq⟩ := List.mem_filterMap.mp hc
    by_cases hq0 : 0 < countHits q.2 (lowerStr content)
    · rw [if_pos hq0] at hfq
      have hpair := Option.some.inj hfq
      have h1 : q.1 = p.1 := (Prod.mk.injEq _ _ _ _ ▸ hpair).1
      have h2 : q = p := hinj hq hp h1
      have h3 : countHits q.2 (lowerStr content) = c := (Prod.mk.injEq _ _ _ _ ▸ hpair).2
      rw [← h3, h2]
    · rw [if_neg hq0] at hfq
      exact absurd hfq (by simp)
  · intro q hq
    obtain ⟨r, hr, hfr⟩ := List.mem_filterMap.mp hq
    by_cases hr0 : 0 < countHits r.2 (lowerStr content)
    · rw [if_pos hr0] at hfr
      have := Option.some.inj hfr
      rw [← this]
      exact hr0
    · rw [if_neg hr0] at hfr
      exact absurd hfr (by simp)

/-- C6 witness: the `positivo` category on a content with two positive
keyword hits (`"paz"` and `"amor"`). -/
theorem claim_C6_witness :
    (("positivo", ["feliz", "alegre", "esperança", "amor", "paz", "luz", "voar", "liberdade"])
        ∈ emotions) ∧
    ((("positivo",
          countHits ["feliz", "alegre", "esperança", "amor", "paz", "luz", "voar", "liberdade"]
            (lowerStr ("muita paz e amor")))
        ∈ analyze_emotions (lowerStr ("muita paz e amor"))) ↔
      0 < countHits ["feliz", "alegre", "esperança", "amor", "paz", "luz", "voar", "liberdade"]
        (lowerStr ("muita paz e amor"))) ∧
    (∀ c, ("positivo", c) ∈ analyze_emotions (lowerStr ("muita paz e amor")) →
      c = countHits ["feliz", "alegre", "esperança", "amor", "paz", "luz", "voar", "liberdade"]
        (lowerStr ("muita paz e amor"))) ∧
    (∀ q ∈ analyze_emotions (lowerStr ("muita paz e amor")), 0 < q.2) :=
  ⟨by decide,
    claim_C6 ("muita paz e amor")
      ("positivo", ["feliz", "alegre", "esperança", "amor", "paz", "luz", "voar", "liberdade"])
      (by decide)⟩

/-- Membership in a stable insertion. -/
theorem mem_insertDesc {α : Type} (val : α → Nat) (x a : α) (l : List α) :
    a ∈ insertDesc val x l ↔ a = x ∨ a ∈ l := by
  induction l with
  | nil => simp [insertDesc]
  | cons y ys ih =>
    simp only [insertDesc]
    by_cases h : val y ≤ val x
    · rw [if_pos h]
      simp [List.mem_cons]
    · rw [if_neg h]
      simp only [List.mem_cons, ih]
      tauto

/-- Membership in a stable descending sort. -/
theorem mem_sortDesc {α : Type} (val : α → Nat) (a : α) (l : List α) :
    a ∈ sortDesc val l ↔ a ∈ l := by
  induction l with
  | nil => simp [sortDesc]
  | cons x xs ih =>
    simp [sortDesc, mem_insertDesc, ih, List.mem_cons]

/-- Stable insertion preserves descending order of values. -/
theorem pairwise_insertDesc {α : Type} (val : α → Nat) (x : α) (l : List α)
    (h : l.Pairwise (fun a b => val b ≤ val a)) :
    (insertDesc val x l).Pairwise (fun a b => val b ≤ val a) := by
  induction l with
  | nil => simp [insertDesc]
  | cons y ys ih =>
    obtain ⟨hy, hys⟩ := List.pairwise_cons.mp h
    simp only [insertDesc]
    by_cases hxy : val y ≤ val x
    · rw [if_pos hxy]
      refine List.Pairwise.cons ?_ h
      intro z hz
      rcases List.mem_cons.mp hz with rfl | hz
      · exact hxy
      · exact le_trans (hy z hz) hxy
    · rw [if_neg hxy]
      refine List.Pairwise.cons ?_ (ih hys)
      intro z hz
      rcases (mem_insertDesc val x z ys).mp hz with rfl | hz
      · exact le_of_not_le hxy
      · exact hy z hz

/-- The stable sort produces non-increasing values. -/
theorem pairwise_sortDesc {α : Type} (val : α → Nat) (l : List α) :
    (sortDesc val l).Pairwise (fun a b => val b ≤ val a) := by
  induction l with
  | nil => simp [sortDesc]
  | cons x xs ih => exact pairwise_insertDesc val x (sortDesc val xs) ih

/-- Stability of the insertion step: relative to any order `Q` compatible with
the input list, equal-valued elements stay ordered by `Q`. -/
theorem stable_insertDesc {α : Type} (val : α → Nat) (Q : α → α → Prop) (x : α)
    (l : List α) :
    l.Pairwise (fun a b => val a = val b → Q a b) →
    (∀ z ∈ l, Q x z) →
    (insertDesc val x l).Pairwise (fun a b => val a = val b → Q a b) := by
  induction l with
  | nil =>
    intro _ _
    simp [insertDesc]
  | cons y ys ih =>
    intro hl hx
    obtain ⟨hy, hys⟩ := List.pairwise_cons.mp hl
    simp only [insertDesc]
    by_cases hxy : val y ≤ val x
    · rw [if_pos hxy]
      refine List.Pairwise.cons ?_ hl
      intro z hz _
      exact hx z hz
    · rw [if_neg hxy]
      refine List.Pairwise.cons ?_
        (ih hys (fun z hz => hx z (List.mem_cons_of_mem _ hz)))
      intro z hz heq
      rcases (mem_insertDesc val x z ys).mp hz with rfl | hz
      · exact absurd (le_of_eq heq) hxy
      · exact hy z hz heq

/-- Stability of the sort: if the input is linearly ordered by `Q`, then in the
output any two equal-valued elements appear in `Q` order. -/
theorem stable_sortDesc {α : Type} (val : α → Nat) (Q : α → α → Prop) (l : List α)
    (hl : l.Pairwise Q) :
    (sortDesc val l).Pairwise (fun a b => val a = val b → Q a b) := by
  induction l with
  | nil => simp [sortDesc]
  | cons x xs ih =>
    obtain ⟨hx, hxs⟩ := List.pairwise_cons.mp hl
    exact stable_insertDesc val Q x (sortDesc val xs) (ih hxs)
      (fun z hz => hx z ((mem_sortDesc val z xs).mp hz))

/-- `firstPos` ignores a tail appended after an occurrence. -/
theorem firstPos_append_left (l l2 : List String) (w : String) (h : w ∈ l) :
    firstPos (l ++ l2) w = firstPos l w := by
  induction l with
  | nil => simp at h
  | cons x t ih =>
    by_cases hx : x = w
    · simp [firstPos, hx]
    · have hmem : w ∈ t := by
        rcases List.mem_cons.mp h with rfl | h2
        · exact absurd rfl hx
        · exact h2
      simp [firstPos, hx, ih hmem]

/-- `firstPos` of a fresh element appended at the end. -/
theorem firstPos_append_self (l : List String) (w : String) (h : w ∉ l) :
    firstPos (l ++ [w]) w = l.length := by
  induction l with
  | nil => simp [firstPos]
  | cons x t ih =>
    have hx : x ≠ w := by
      rintro rfl
      exact h (List.mem_cons_self _ _)
    have h2 : w ∉ t := fun hw => h (List.mem_cons_of_mem _ hw)
    simp [firstPos, hx, ih h2]

/-- The first occurrence of a member comes before the end of the list. -/
theorem firstPos_lt_length (l : List String) (w : String) (h : w ∈ l) :
    firstPos l w < l.length := by
  induction l with
  | nil => simp at h
  | cons x t ih =>
    by_cases hx : x = w
    · simp [firstPos, hx]
    · have hmem : w ∈ t := by
        rcases List.mem_cons.mp h with rfl | h2
        · exact absurd rfl hx
        · exact h2
      simp only [firstPos, if_neg hx, List.length_cons]
      exact Nat.succ_lt_succ (ih hmem)

/-- Bumping an existing key leaves the key sequence unchanged. -/
theorem bumpAdd_map_fst_mem (l : List (String × Nat)) (w : String) (s : Nat)
    (h : w ∈ l.map Prod.fst) :
    (bumpAdd l w s).map Prod.fst = l.map Prod.fst := by
  induction l with
  | nil => simp at h
  | cons p t ih =>
    obtain ⟨k, c⟩ := p
    by_cases hk : k = w
    · simp [bumpAdd, hk]
    · simp only [List.map_cons] at h
      have hmem : w ∈ t.map Prod.fst := by
        rcases List.mem_cons.mp h with h1 | h1
        · exact absurd h1.symm hk
        · exact h1
      simp [bumpAdd, hk, ih hmem]

/-- Bumping an absent key appends it at the end of the key sequence. -/
theorem bumpAdd_map_fst_not_mem (l : List (String × Nat)) (w : String) (s : Nat)
    (h : w ∉ l.map Prod.fst) :
    (bumpAdd l w s).map Prod.fst = l.map Prod.fst ++ [w] := by
  induction l with
  | nil => simp [bumpAdd]
  | cons p t ih =>
    obtain ⟨k, c⟩ := p
    have hk : k ≠ w := by
      rintro rfl
      exact h (by simp)
    have h2 : w ∉ t.map Prod.fst := fun hw => h (by simp [hw])
    simp [bumpAdd, hk, ih h2]

/-- The keys of the frequency dict are exactly the distinct tokens, listed in
first-occurrence order of the token list. -/
theorem buildFreq_keys (ks : List String) :
    ((buildFreq ks).map Prod.fst).Pairwise (fun a b => firstPos ks a < firstPos ks b) ∧
    (∀ a ∈ (buildFreq ks).map Prod.fst, a ∈ ks) ∧
    (∀ a ∈ ks, a ∈ (buildFreq ks).map Prod.fst) := by
  induction ks using List.reverseRecOn with
  | nil => simp [buildFreq]
  | append_singleton ks w ih =>
    obtain ⟨hpw, hsub, hsup⟩ := ih
    have hfold : buildFreq (ks ++ [w]) = bumpAdd (buildFreq ks) w 1 := by
      unfold buildFreq
      rw [List.foldl_append]
      rfl
    have hlift : ∀ a ∈ (buildFreq ks).map Prod.fst, ∀ b ∈ (buildFreq ks).map Prod.fst,
        firstPos ks a < firstPos ks b → firstPos (ks ++ [w]) a < firstPos (ks ++ [w]) b := by
      intro a ha b hb hab
      rw [firstPos_append_left ks [w] a (hsub a ha), firstPos_append_left ks [w] b (hsub b hb)]
      exact hab
    by_cases hw : w ∈ (buildFreq ks).map Prod.fst
    · have hkeys : (buildFreq (ks ++ [w])).map Prod.fst = (buildFreq ks).map Prod.fst := by
        rw [hfold]
        exact bumpAdd_map_fst_mem _ _ _ hw
      refine ⟨?_, ?_, ?_⟩
      · rw [hkeys]
        exact hpw.imp_of_mem (fun ha hb hab => hlift _ ha _ hb hab)
      · intro a ha
        rw [hkeys] at ha
        exact List.mem_append_left _ (hsub a ha)
      · intro a ha
        rw [hkeys]
        rcases List.mem_append.mp ha with ha | ha
        · exact hsup a ha
        · have haw : a = w := by simpa using ha
          exact haw ▸ hw
    · have hkeys : (buildFreq (ks ++ [w])).map Prod.fst
          = (buildFreq ks).map Prod.fst ++ [w] := by
        rw [hfold]
        exact bumpAdd_map_fst_not_mem _ _ _ hw
      have hwks : w ∉ ks := fun hmem => hw (hsup w hmem)
      refine ⟨?_, ?_, ?_⟩
      · rw [hkeys, List.pairwise_append]
        refine ⟨hpw.imp_of_mem (fun ha hb hab => hlift _ ha _ hb hab), by simp, ?_⟩
        intro a ha b hb
        have hbw : b = w := by simpa using hb
        subst hbw
        rw [firstPos_append_left ks [b] a (hsub a ha), firstPos_append_self ks b hwks]
        exact firstPos_lt_length ks a (hsub a ha)
      · intro a ha
        rw [hkeys] at ha
        rcases List.mem_append.mp ha with h1 | h1
        · exact List.mem_append_left _ (hsub a h1)
        · have haw : a = w := by simpa using h1
          subst haw
          exact List.mem_append_right _ (by simp)
      · intro a ha
        rw [hkeys]
        rcases List.mem_append.mp ha with h1 | h1
        · exact List.mem_append_left _ (hsup a h1)
        · have haw : a = w := by simpa using h1
          subst haw
          exact List.mem_append_right _ (by simp)

/-- First-occurrence order inside a filtered list implies first-occurrence
order in the original list (the filter predicate depends only on the token, so
all occurrences of a qualifying token survive). -/
theorem firstPos_filter_lt (p : String → Bool) :
    ∀ (l : List String) (a b : String), a ∈ l.filter p → b ∈ l.filter p →
      firstPos (l.filter p) a < firstPos (l.filter p) b →
      firstPos l a < firstPos l b := by
  intro l
  induction l with
  | nil =>
    intro a b ha
    simp at ha
  | cons x t ih =>
    intro a b ha hb h
    by_cases hp : p x
    · rw [List.filter_cons_of_pos hp] at ha hb h
      by_cases hax : x = a
      · subst hax
        have hbx : x ≠ b := by
          rintro rfl
          simp [firstPos] at h
        have e1 : firstPos (x :: t) x = 0 := by simp [firstPos]
        have e2 : firstPos (x :: t) b = firstPos t b + 1 := by simp [firstPos, hbx]
        omega
      · by_cases hbx : x = b
        · subst hbx
          exfalso
          have e0 : firstPos (x :: t.filter p) x = 0 := by simp [firstPos]
          omega
        · have hamem : a ∈ t.filter p := by
            rcases List.mem_cons.mp ha with h1 | h1
            · exact absurd h1.symm hax
            · exact h1
          have hbmem : b ∈ t.filter p := by
            rcases List.mem_cons.mp hb with h1 | h1
            · exact absurd h1.symm hbx
            · exact h1
          have e1 : firstPos (x :: t.filter p) a = firstPos (t.filter p) a + 1 := by
            simp [firstPos, hax]
          have e2 : firstPos (x :: t.filter p) b = firstPos (t.filter p) b + 1 := by
            simp [firstPos, hbx]
          have hrec := ih a b hamem hbmem (by omega)
          have e3 : firstPos (x :: t) a = firstPos t a + 1 := by simp [firstPos, hax]
          have e4 : firstPos (x :: t) b = firstPos t b + 1 := by simp [firstPos, hbx]
          omega
    · rw [List.filter_cons_of_neg hp] at ha hb h
      have hax : x ≠ a := by
        rintro rfl
        exact hp ((List.mem_filter.mp ha).2)
      have hbx : x ≠ b := by
        rintro rfl
        exact hp ((List.mem_filter.mp hb).2)
      have hrec := ih a b ha hb h
      have e3 : firstPos (x :: t) a = firstPos t a + 1 := by simp [firstPos, hax]
      have e4 : firstPos (x :: t) b = firstPos t b + 1 := by simp [firstPos, hbx]
      omega

/-- C5: `extract_keywords` returns at most 5 `(token, frequency)` pairs, every
returned token is longer than 4 characters, the frequencies are non-increasing
along the list, and among equal-frequency tokens the one whose first
occurrence in the tokenized text comes earlier appears earlier (Python's
`sorted` is stable and dict insertion order is first-occurrence order). -/
theorem claim_C5 (content : String) :
    (extract_keywords content).length ≤ 5 ∧
    (∀ q ∈ extract_keywords content, 4 < q.1.length) ∧
    (extract_keywords content).Pairwise (fun a b => b.2 ≤ a.2) ∧
    (extract_keywords content).Pairwise (fun a b =>
      a.2 = b.2 → firstPos (findWords content) a.1 < firstPos (findWords content) b.1) := by
  have hek : extract_keywords content =
      (sortDesc Prod.snd (buildFreq
        ((findWords content).filter (fun w => 4 < w.length)))).take 5 := rfl
  have hkeys := buildFreq_keys ((findWords content).filter (fun w => 4 < w.length))
  have hmemkw : ∀ q ∈ extract_keywords content,
      q.1 ∈ (findWords content).filter (fun w => 4 < w.length) := by
    intro q hq
    rw [hek] at hq
    have hq1 := List.mem_of_mem_take hq
    have hq2 := (mem_sortDesc Prod.snd q _).mp hq1
    have hq3 : q.1 ∈ (buildFreq
        ((findWords content).filter (fun w => 4 < w.length))).map Prod.fst :=
      List.mem_map_of_mem Prod.fst hq2
    exact hkeys.2.1 _ hq3
  refine ⟨?_, ?_, ?_, ?_⟩
  · rw [hek]
    exact List.length_take_le 5 _
  · intro q hq
    have hfl := (List.mem_filter.mp (hmemkw q hq)).2
    simpa using hfl
  · rw [hek]
    exact List.Pairwise.sublist (List.take_sublist _ _) (pairwise_sortDesc Prod.snd _)
  · have hpw0 : (buildFreq ((findWords content).filter (fun w => 4 < w.length))).Pairwise
        (fun a b => firstPos ((findWords content).filter (fun w => 4 < w.length)) a.1
          < firstPos ((findWords content).filter (fun w => 4 < w.length)) b.1) :=
      (List.pairwise_map (f := Prod.fst)).mp hkeys.1
    have hsorted := stable_sortDesc Prod.snd _ _ hpw0
    have htake := List.Pairwise.sublist (List.take_sublist 5 _) hsorted
    rw [hek]
    refine htake.imp_of_mem ?_
    intro a b ha hb hab heq
    have hak : a.1 ∈ (findWords content).filter (fun w => 4 < w.length) := by
      apply hmemkw
      rw [hek]
      exact ha
    have hbk : b.1 ∈ (findWords content).filter (fun w => 4 < w.length) := by
      apply hmemkw
      rw [hek]
      exact hb
    exact firstPos_filter_lt _ (findWords content) a.1 b.1 hak hbk (hab heq)

/-- C5 witness: instantiation at a content with repeated long tokens. -/
theorem claim_C5_witness :
    (extract_keywords ("sonho bonito sonho lindo bonito sonho")).length ≤ 5 ∧
    (∀ q ∈ extract_keywords ("sonho bonito sonho lindo bonito sonho"), 4 < q.1.length) ∧
    (extract_keywords ("sonho bonito sonho lindo bonito sonho")).Pairwise
      (fun a b => b.2 ≤ a.2) ∧
    (extract_keywords ("sonho bonito sonho lindo bonito sonho")).Pairwise
      (fun a b => a.2 = b.2 →
        firstPos (findWords ("sonho bonito sonho lindo bonito sonho")) a.1
          < firstPos (findWords ("sonho bonito sonho lindo bonito sonho")) b.1) :=
  claim_C5 ("sonho bonito sonho lindo bonito sonho")

end Sonhos
